import Mathlib

set_option maxRecDepth 100000

/-!
Verification of the commandy suggestion pipeline
(`src/ai/llamacpp_client.rs`) against its specification.

Strings of the Rust source are shallowly embedded as `List Char`; Rust
`str::len` (UTF-8 byte count) is modelled by `utf8Len`, Unicode whitespace
by its ASCII fragment (the inputs the pipeline manipulates are ASCII
apart from the learned-pattern markers).  The external `which` PATH
lookup performed by the validator is an oracle parameter `which :
Str → Bool`, and the lossy UTF-8 decoding of the engine's output streams
is an oracle parameter `decode : List Nat → Str`.
-/

namespace Commandy

/-- Characters of a Rust `String`/`&str`. -/
abbrev Str := List Char

/-- Character list of a Lean string literal. -/
def strOf (s : String) : Str := s.data

/-- ASCII fragment of Rust `char::is_whitespace`. -/
def isWsB (c : Char) : Bool := c = ' ' || c = '\t' || c = '\n' || c = '\r'

/-- Rust `char::is_ascii_punctuation`. -/
def isAsciiPunct (c : Char) : Bool :=
  (0x21 ≤ c.toNat && c.toNat ≤ 0x2F) || (0x3A ≤ c.toNat && c.toNat ≤ 0x40) ||
  (0x5B ≤ c.toNat && c.toNat ≤ 0x60) || (0x7B ≤ c.toNat && c.toNat ≤ 0x7E)

/-- The three sentence-ending characters of the fallback parser. -/
def isPunct3 (c : Char) : Bool := c = '.' || c = '!' || c = '?'

/-- Rust `str::len`: the UTF-8 byte count of a string. -/
def utf8Len (s : Str) : Nat := (s.map Char.utf8Size).sum

/-- `startsWithL s pat`: `pat` is a prefix of `s` (Rust `str::starts_with`). -/
def startsWithL : Str → Str → Bool
  | _, [] => true
  | [], _ :: _ => false
  | c :: s, d :: p => if c = d then startsWithL s p else false

/-- `containsL s pat`: `pat` occurs as a contiguous substring of `s`
(Rust `str::contains` with a string pattern). -/
def containsL : Str → Str → Bool
  | [], pat => startsWithL [] pat
  | c :: s, pat => startsWithL (c :: s) pat || containsL s pat

/-- `endsWithL s pat`: `pat` is a suffix of `s` (Rust `str::ends_with`). -/
def endsWithL (s pat : Str) : Bool := startsWithL s.reverse pat.reverse

/-- Worker of `splitWs`; `cur` holds the reversed current word. -/
def splitWsGo : Str → Str → List Str
  | [], cur => if cur.isEmpty then [] else [cur.reverse]
  | c :: rest, cur =>
    if isWsB c then
      if cur.isEmpty then splitWsGo rest [] else cur.reverse :: splitWsGo rest []
    else splitWsGo rest (c :: cur)

/-- Rust `str::split_whitespace`: whitespace-separated words, empties dropped. -/
def splitWs (s : Str) : List Str := splitWsGo s []

/-- Rust `str::trim`. -/
def trimStr (s : Str) : Str :=
  ((s.dropWhile isWsB).reverse.dropWhile isWsB).reverse

/-- Rust `str::trim_end_matches(&['.', '!', '?'])`. -/
def trimEndPunct (s : Str) : Str := (s.reverse.dropWhile isPunct3).reverse

/-- Rust `str::trim_start_matches(char::is_ascii_punctuation)`. -/
def trimStartPunct (s : Str) : Str := s.dropWhile isAsciiPunct

/-- Splits at every occurrence of `sep`, keeping empty pieces
(Rust `str::split(sep)` with a `char` pattern). -/
def splitOnChar (sep : Char) : Str → List Str
  | [] => [[]]
  | c :: rest =>
    if c = sep then [] :: splitOnChar sep rest
    else
      match splitOnChar sep rest with
      | [] => [[c]]
      | p :: ps => (c :: p) :: ps

/-- Drops one trailing carriage return. -/
def stripCr (l : Str) : Str := if l.getLast? = some '\r' then l.dropLast else l

/-- Rust `str::lines`: split at `'\n'`, strip a `'\r'` preceding each split
point, and drop the empty tail produced by a terminating newline. -/
def rustLines (s : Str) : List Str :=
  let parts := splitOnChar '\n' s
  let last := (parts.getLast?).getD []
  let init := (parts.dropLast).map stripCr
  if last.isEmpty then init else init ++ [last]

/-- Rust `[String]::join(sep)`. -/
def joinSep (sep : Str) : List Str → Str
  | [] => []
  | [x] => x
  | x :: y :: xs => x ++ sep ++ joinSep sep (y :: xs)

/-- ASCII fragment of Rust `str::to_lowercase`. -/
def toLowerStr (s : Str) : Str := s.map Char.toLower

/-- `crate::cli::Suggestion` (declared outside the provided sources; its
shape is determined by the construction sites in `parse_response` /
`extract_commands_fallback` and by spec §3).  The `f32` confidence is
modelled as a rational, which is faithful here because the pipeline only
ever stores the literals `0.8` and `0.6` and never computes with them. -/
structure Suggestion where
  command : Str
  explanation : Option Str
  confidence : ℚ
deriving DecidableEq, Repr

/-- Modelled from the spec: `crate::context::ContextData` (the
ContextSnapshot of §3) is declared outside the provided sources; its
fields are those read by `build_enhanced_prompt`: an environment mapping
with unique string keys, the recent-command sequence, and the
accumulated learned-pattern text. -/
structure ContextData where
  environment : List (Str × Str)
  recent_commands : List Str
  content : Str

/-- Lookup in the environment mapping (Rust `HashMap::get`). -/
def envGet (env : List (Str × Str)) (k : Str) : Option Str :=
  (env.find? (fun p => p.1 = k)).map (·.2)

/-- The hardcoded denylist of `is_valid_command`. -/
def dangerous_patterns : List Str :=
  (["rm -rf /", "rm -rf *", "dd if=", "mkfs", "fdisk", "> /dev/"]).map strOf

/-- The pseudo-command substrings of `is_valid_command`. -/
def pseudo_patterns : List Str :=
  ([" query ", " api ", " endpoint ", " service "]).map strOf

/-- The shell builtins allowed by `is_valid_command`. -/
def shell_builtins : List Str :=
  (["cd", "echo", "pwd", "export", "alias"]).map strOf

/-- The Command Vocabulary matched by `is_command_starter`. -/
def command_starters : List Str :=
  (["ls", "cd", "grep", "find", "docker", "kubectl", "git", "curl", "wget",
    "ssh", "sudo", "cp", "mv", "rm", "cat", "tail", "head", "ps", "kill",
    "top", "df", "du", "tar", "zip", "unzip", "chmod", "chown", "systemctl",
    "service", "apt", "yum", "npm", "yarn", "pip", "cargo", "make", "cmake",
    "rsync", "scp", "awk", "sed", "sort", "uniq", "cut", "tr", "xargs"]).map strOf

/-- `LlamaCppClient::is_command_starter`. -/
def is_command_starter (word : Str) : Bool :=
  command_starters.contains (trimStartPunct word)

/-- First whitespace-delimited token of a string
(Rust `s.split_whitespace().next().unwrap_or("")`). -/
def firstTok (s : Str) : Str := (splitWs s).headD []

/-- `LlamaCppClient::looks_like_command`. -/
def looks_like_command (line : Str) : Bool :=
  let first_word := firstTok line
  if is_command_starter first_word then true
  else containsL line (strOf "--") || (containsL line (strOf "-") && (splitWs line).length > 1)

/-- `LlamaCppClient::is_valid_command`; `which first_word` models the exit
status of the external `which` lookup. -/
def is_valid_command (which : Str → Bool) (command : Str) : Bool :=
  if dangerous_patterns.any (fun pattern => containsL command pattern) then false
  else if command.isEmpty || utf8Len command > 500 then false
  else
    let first_word := trimStr (firstTok command)
    if first_word.isEmpty || first_word.head? = some '#' then false
    else if which first_word then true
    else if first_word.contains '/' || shell_builtins.contains first_word then true
    else if pseudo_patterns.any (fun pattern => containsL (toLowerStr command) pattern) then false
    else false

/-- The line loop of `LlamaCppClient::parse_response`. -/
def primaryGo (which : Str → Bool) (max_suggestions : Nat) :
    List Str → List Suggestion → List Suggestion
  | [], suggestions => suggestions
  | line :: rest, suggestions =>
    let l := trimStr line
    if l.isEmpty || l.head? = some '#' || utf8Len l > 300 then
      primaryGo which max_suggestions rest suggestions
    else if looks_like_command l && is_valid_command which l then
      let suggestions' := suggestions ++ [⟨l, none, mkRat 8 10⟩]
      if suggestions'.length ≥ max_suggestions then suggestions'
      else primaryGo which max_suggestions rest suggestions'
    else primaryGo which max_suggestions rest suggestions

/-- The primary line-based strategy of `parse_response`. -/
def primary_parse (which : Str → Bool) (response : Str) (max_suggestions : Nat) :
    List Suggestion :=
  primaryGo which max_suggestions (rustLines response) []

/-- The word loop of `LlamaCppClient::extract_commands_fallback`; returns
the suggestion list together with the final `current_command`. -/
def fbGo (which : Str → Bool) (max_suggestions : Nat) :
    List Str → Str → List Suggestion → List Suggestion × Str
  | [], current_command, suggestions => (suggestions, current_command)
  | word :: rest, current_command, suggestions =>
    if utf8Len word > 100 then fbGo which max_suggestions rest current_command suggestions
    else if is_command_starter word then
      if !current_command.isEmpty && is_valid_command which current_command then
        let suggestions' := suggestions ++ [⟨trimStr current_command, none, mkRat 6 10⟩]
        if suggestions'.length ≥ max_suggestions then (suggestions', current_command)
        else fbGo which max_suggestions rest word suggestions'
      else fbGo which max_suggestions rest word suggestions
    else if !current_command.isEmpty then
      let current' := current_command ++ ' ' :: word
      if word.getLast? = some '.' || word.getLast? = some '!' || word.getLast? = some '?' then
        if is_valid_command which current' then
          let suggestions' := suggestions ++ [⟨trimEndPunct current', none, mkRat 6 10⟩]
          if suggestions'.length ≥ max_suggestions then (suggestions', current')
          else fbGo which max_suggestions rest [] suggestions'
        else fbGo which max_suggestions rest [] suggestions
      else fbGo which max_suggestions rest current' suggestions
    else fbGo which max_suggestions rest current_command suggestions

/-- `LlamaCppClient::extract_commands_fallback`. -/
def extract_commands_fallback (which : Str → Bool) (response : Str)
    (max_suggestions : Nat) : List Suggestion :=
  let r := fbGo which max_suggestions (splitWs response) [] []
  if !r.2.isEmpty && is_valid_command which r.2 then
    r.1 ++ [⟨trimStr r.2, none, mkRat 6 10⟩]
  else r.1

/-- `LlamaCppClient::parse_response`. -/
def parse_response (which : Str → Bool) (response : Str) (max_suggestions : Nat) :
    List Suggestion :=
  let suggestions := primary_parse which response max_suggestions
  if suggestions.isEmpty then extract_commands_fallback which response max_suggestions
  else suggestions

/-- The available-tools line value: the first 20 comma-separated entries of
the `available_tools` environment value, re-joined, defaulting to `basic`
(Rust `map_or` in `build_enhanced_prompt`). -/
def toolsOf (environment : List (Str × Str)) : Str :=
  match envGet environment (strOf "available_tools") with
  | none => strOf "basic"
  | some v => joinSep (strOf ", ") ((splitOnChar ',' v).take 20)

/-- The recent-commands line value: the first word of each of the first 3
recent commands, comma-joined (empty first words included). -/
def recentOf (recent_commands : List Str) : Str :=
  joinSep (strOf ", ") ((recent_commands.take 3).map (fun cmd => firstTok cmd))

/-- The learned-pattern lines: the first 5 lines of the accumulated context
text that contain a directional or success marker. -/
def relevantPatterns (content : Str) : List Str :=
  ((rustLines content).filter
    (fun line => containsL line (strOf "→") || containsL line (strOf "✓"))).take 5

/-- Template piece before the first interpolation of the user prompt. -/
def tplTop : Str := strOf "Generate ONLY valid shell commands for: "

/-- Template piece opening the system-information block. -/
def tplSys : Str := strOf "\n\nSystem Information:\n"

/-- Template label of the OS line. -/
def tplOS : Str := strOf "- OS: "

/-- Template label of the shell line. -/
def tplShell : Str := strOf "- Shell: "

/-- Template label of the available-executables line. -/
def tplTools : Str := strOf "- Available executables: "

/-- Template label of the recent-commands line. -/
def tplRecent : Str := strOf "- Recent commands: "

/-- A single newline. -/
def nl : Str := strOf "\n"

/-- Template piece between the recent-commands line and the second
interpolation of the user prompt. -/
def tplMid : Str := strOf "\nCRITICAL REQUIREMENTS:\n1. Commands MUST use only executables that exist in PATH\n2. Start with real command names, not pseudo-commands\n3. Use proper shell syntax\n4. Be directly executable\n5. Provide safe, practical solutions\n\nOutput format: Return 1-3 shell commands, each on a new line.\nExample format:\ndocker ps -a\nls -la /var/log\ngrep -r \"error\" /var/log/\n\nCommands for: "

/-- The Rust format template of `build_enhanced_prompt` with its six
interpolation arguments. -/
def basePrompt (user_prompt os shell available_tools recent : Str) : Str :=
  tplTop ++ user_prompt ++ tplSys ++ tplOS ++ os ++ nl ++ tplShell ++ shell ++ nl ++
  tplTools ++ available_tools ++ nl ++ tplRecent ++ recent ++ nl ++ tplMid ++ user_prompt

/-- `LlamaCppClient::build_enhanced_prompt`. -/
def build_enhanced_prompt (user_prompt : Str) (context : ContextData) : Str :=
  let prompt := basePrompt user_prompt
    ((envGet context.environment (strOf "os")).getD (strOf "unknown"))
    ((envGet context.environment (strOf "shell")).getD (strOf "unknown"))
    (toolsOf context.environment)
    (recentOf context.recent_commands)
  let prompt :=
    if !context.content.isEmpty then
      let relevant_patterns := relevantPatterns context.content
      if !relevant_patterns.isEmpty then
        prompt ++ strOf "\n\nLearned patterns:\n" ++ joinSep (strOf "\n") relevant_patterns
      else prompt
    else prompt
  prompt ++ strOf "\n\nCommands:"

/-- The captured result of the external engine process: exit status and the
raw bytes of both streams (Rust `std::process::Output`). -/
structure ProcessOutput where
  exit_success : Bool
  stdout : List Nat
  stderr : List Nat

/-- The failure modes of the Inference Invoker (spec §7). -/
inductive EngineError where
  | spawnFailed : EngineError
  | executionFailed : Str → EngineError
deriving DecidableEq, Repr

/-- `LlamaCppClient::generate_text`: `run` is the outcome of
`command.output()` (`none` when the process cannot be started), and
`decode` models `String::from_utf8_lossy`. -/
def generate_text (decode : List Nat → Str) (run : Option ProcessOutput) :
    Except EngineError Str :=
  match run with
  | none => .error .spawnFailed
  | some output =>
    if !output.exit_success then .error (.executionFailed (decode output.stderr))
    else .ok (trimStr (decode output.stdout))

/-- `LlamaCppClient::generate_suggestions` with the engine invocation
abstracted by its outcome `run`. -/
def generate_suggestions (which : Str → Bool) (decode : List Nat → Str)
    (run : Option ProcessOutput) (max_suggestions : Nat) :
    Except EngineError (List Suggestion) :=
  match generate_text decode run with
  | .error e => .error e
  | .ok response => .ok (parse_response which response max_suggestions)

/-- The spec's six-step validator reference procedure (§4.5), first match
wins, with the PATH lookup as the oracle `which` and the length threshold
of step 2 measured in UTF-8 bytes. -/
def validate_spec (which : Str → Bool) (cand : Str) : Bool :=
  if dangerous_patterns.any (fun pattern => containsL cand pattern) then false
  else if cand.isEmpty || utf8Len cand > 500 then false
  else
    let tok := firstTok cand
    if tok.isEmpty || tok.head? = some '#' then false
    else if which tok || tok.contains '/' || shell_builtins.contains tok then true
    else if pseudo_patterns.any (fun pattern => containsL (toLowerStr cand) pattern) then false
    else false

/-- The spec's six-step validator procedure with step 2's "longer than 500
characters" read literally as a character count, as the claim states it. -/
def validate_spec_chars (which : Str → Bool) (cand : Str) : Bool :=
  if dangerous_patterns.any (fun pattern => containsL cand pattern) then false
  else if cand.isEmpty || cand.length > 500 then false
  else
    let tok := firstTok cand
    if tok.isEmpty || tok.head? = some '#' then false
    else if which tok || tok.contains '/' || shell_builtins.contains tok then true
    else if pseudo_patterns.any (fun pattern => containsL (toLowerStr cand) pattern) then false
    else false

/-- Oracle for a host where every first token resolves via PATH. -/
def whichTrue : Str → Bool := fun _ => true

/-- Oracle for a host where no executable resolves via PATH. -/
def whichFalse : Str → Bool := fun _ => false

/-- A 153-character, 303-byte command line (`"cd "` followed by 150 copies
of the two-byte character `é`). -/
def c6line : Str := strOf "cd " ++ List.replicate 150 'é'

/-- A 253-character, 503-byte candidate. -/
def c4cand : Str := strOf "cd " ++ List.replicate 250 'é'

/-- Context whose recent commands contain an empty entry. -/
def c7ctx : ContextData :=
  { environment := [(strOf "os", strOf "linux"), (strOf "shell", strOf "bash")],
    recent_commands := [[], strOf "docker ps"],
    content := [] }

/-- Context with non-empty learned text but no marker lines. -/
def c8ctx : ContextData :=
  { environment := [], recent_commands := [], content := strOf "hello" }

/-- A word produced by `splitWs`: non-empty and whitespace-free. -/
def GoodWord (w : Str) : Prop := w ≠ [] ∧ ∀ c ∈ w, isWsB c = false

/-- Shape invariant of `current_command` in the fallback loop: empty, or a
command-starter word possibly followed by a space-joined tail, with no
whitespace at either edge. -/
def CurOK (cur : Str) : Prop :=
  cur = [] ∨ ∃ w t, GoodWord w ∧ is_command_starter w = true ∧
    (∀ c, cur.getLast? = some c → isWsB c = false) ∧ (cur = w ∨ cur = w ++ ' ' :: t)

/-- Properties of every suggestion emitted by the fallback strategy. -/
def QSugg (which : Str → Bool) (s : Suggestion) : Prop :=
  s.command ≠ [] ∧ utf8Len s.command ≤ 500 ∧ s.command.length ≤ 500 ∧
  is_valid_command which s.command = true ∧
  is_command_starter (firstTok s.command) = true ∧
  s.confidence = mkRat 6 10 ∧ s.explanation = none

/-- Per-line decision of the primary strategy on an already-trimmed line:
reject skipped lines (empty, comment, over 300 bytes), otherwise accept
exactly the lines that look like a command and validate. -/
def primaryAccept (which : Str → Bool) (l : Str) : Bool :=
  if l.isEmpty || l.head? = some '#' || utf8Len l > 300 then false
  else looks_like_command l && is_valid_command which l

/-- The suggestions of all accepted lines, in order, uncapped. -/
def primaryFilter (which : Str → Bool) (lines : List Str) : List Suggestion :=
  ((lines.map trimStr).filter (fun l => primaryAccept which l)).map
    (fun l => ⟨l, none, mkRat 8 10⟩)

/-! ### Lemmas about the string primitives -/

theorem startsWithL_iff (s pat : Str) : startsWithL s pat = true ↔ pat <+: s := by
  induction pat generalizing s with
  | nil => simp [startsWithL]
  | cons d p ih =>
    cases s with
    | nil => simp [startsWithL]
    | cons c s =>
      simp only [startsWithL, List.cons_prefix_cons]
      by_cases h : c = d
      · subst h
        simp [ih]
      · rw [if_neg h]
        simp only [Bool.false_eq_true, false_iff, not_and]
        intro hh
        exact fun _ => h hh.symm

theorem containsL_iff (s pat : Str) : containsL s pat = true ↔ pat <:+: s := by
  induction s with
  | nil =>
    simp [containsL, startsWithL_iff]
  | cons c s ih =>
    simp only [containsL, Bool.or_eq_true, startsWithL_iff, ih, List.infix_cons_iff]

theorem containsL_mono (s t pat : Str) (hsub : s <:+: t)
    (h : containsL s pat = true) : containsL t pat = true := by
  rw [containsL_iff] at h ⊢
  exact h.trans hsub

theorem containsL_of_parts (a pat b : Str) : containsL (a ++ pat ++ b) pat = true := by
  rw [containsL_iff]
  exact List.infix_append a pat b

theorem endsWithL_of_append (a pat : Str) : endsWithL (a ++ pat) pat = true := by
  simp only [endsWithL, List.reverse_append, startsWithL_iff]
  exact List.prefix_append pat.reverse a.reverse

theorem utf8Len_append (a b : Str) : utf8Len (a ++ b) = utf8Len a + utf8Len b := by
  simp [utf8Len]

theorem length_le_utf8Len (s : Str) : s.length ≤ utf8Len s := by
  induction s with
  | nil => simp [utf8Len]
  | cons c s ih =>
    simp only [utf8Len, List.map_cons, List.sum_cons, List.length_cons] at ih ⊢
    have := Char.utf8Size_pos c
    omega

theorem utf8Len_le_of_initial (a b : Str) (h : a <+: b) : utf8Len a ≤ utf8Len b := by
  obtain ⟨t, rfl⟩ := h
  rw [utf8Len_append]
  omega

theorem splitWsGo_words (s : Str) : ∀ cur, (∀ c ∈ cur, isWsB c = false) →
    ∀ x ∈ splitWsGo s cur, x ≠ [] ∧ ∀ c ∈ x, isWsB c = false := by
  induction s with
  | nil =>
    intro cur hcur x hx
    simp only [splitWsGo] at hx
    split at hx
    · simp at hx
    · rename_i hne
      rw [List.isEmpty_iff] at hne
      simp only [List.mem_singleton] at hx
      subst hx
      refine ⟨by simpa using hne, fun c hc => hcur c (List.mem_reverse.mp hc)⟩
  | cons a s ih =>
    intro cur hcur x hx
    simp only [splitWsGo] at hx
    by_cases hws : isWsB a = true
    · rw [if_pos hws] at hx
      split at hx
      · exact ih [] (by simp) x hx
      · rename_i hne
        rw [List.isEmpty_iff] at hne
        rcases List.mem_cons.mp hx with h | h
        · subst h
          refine ⟨by simpa using hne, fun c hc => hcur c (List.mem_reverse.mp hc)⟩
        · exact ih [] (by simp) x h
    · rw [if_neg hws] at hx
      refine ih (a :: cur) ?_ x hx
      intro c hc
      rcases List.mem_cons.mp hc with h | h
      · subst h
        simpa using hws
      · exact hcur c h

theorem splitWs_words (s : Str) : ∀ x ∈ splitWs s, x ≠ [] ∧ ∀ c ∈ x, isWsB c = false :=
  splitWsGo_words s [] (by simp)

theorem splitWsGo_append (w : Str) : ∀ s cur, (∀ c ∈ w, isWsB c = false) →
    splitWsGo (w ++ s) cur = splitWsGo s (w.reverse ++ cur) := by
  induction w with
  | nil => simp
  | cons a w ih =>
    intro s cur hw
    have ha : isWsB a = false := hw a (by simp)
    simp only [List.cons_append, splitWsGo, ha, Bool.false_eq_true, if_false,
      List.append_eq]
    rw [ih s (a :: cur) (fun c hc => hw c (by simp [hc]))]
    simp

theorem splitWs_cons_space (w t : Str) (hne : w ≠ [])
    (hw : ∀ c ∈ w, isWsB c = false) :
    splitWs (w ++ ' ' :: t) = w :: splitWs t := by
  unfold splitWs
  rw [splitWsGo_append w (' ' :: t) [] hw]
  have hsp : isWsB ' ' = true := by decide
  simp only [splitWsGo, hsp, if_true, List.append_nil]
  rw [if_neg (by simpa [List.isEmpty_iff] using hne)]
  simp

theorem splitWs_single (w : Str) (hne : w ≠ []) (hw : ∀ c ∈ w, isWsB c = false) :
    splitWs w = [w] := by
  unfold splitWs
  rw [show w = w ++ ([] : Str) by simp, splitWsGo_append w [] [] hw]
  simp only [splitWsGo, List.append_nil]
  rw [if_neg (by simpa [List.isEmpty_iff] using hne)]
  simp

theorem firstTok_cons_space (w t : Str) (hne : w ≠ [])
    (hw : ∀ c ∈ w, isWsB c = false) : firstTok (w ++ ' ' :: t) = w := by
  simp [firstTok, splitWs_cons_space w t hne hw]

theorem dropWhile_eq_self_of_head (p : Char → Bool) (l : Str)
    (h : ∀ c, l.head? = some c → p c = false) : l.dropWhile p = l := by
  cases l with
  | nil => rfl
  | cons a l => simp [List.dropWhile_cons, h a rfl]

theorem trimStr_eq_self (l : Str) (h1 : ∀ c, l.head? = some c → isWsB c = false)
    (h2 : ∀ c, l.getLast? = some c → isWsB c = false) : trimStr l = l := by
  unfold trimStr
  rw [dropWhile_eq_self_of_head _ _ h1]
  rw [dropWhile_eq_self_of_head _ _ (fun c hc => h2 c (by rwa [List.head?_reverse] at hc))]
  exact List.reverse_reverse l

theorem trimStr_of_noWs (l : Str) (h : ∀ c ∈ l, isWsB c = false) : trimStr l = l := by
  refine trimStr_eq_self l (fun c hc => h c ?_) (fun c hc => h c ?_)
  · exact List.mem_of_mem_head? hc
  · exact List.mem_of_mem_getLast? hc

theorem trimEndPunct_initial (l : Str) : trimEndPunct l <+: l :=
  ⟨(l.reverse.takeWhile isPunct3).reverse, by
    rw [trimEndPunct, ← List.reverse_append, List.takeWhile_append_dropWhile isPunct3 l.reverse,
      List.reverse_reverse]⟩

theorem trimEndPunct_word_space (w rest : Str) :
    trimEndPunct (w ++ ' ' :: rest) = w ++ ' ' :: trimEndPunct rest := by
  have hsp : isPunct3 ' ' = false := by decide
  unfold trimEndPunct
  rw [show (w ++ ' ' :: rest).reverse = rest.reverse ++ ' ' :: w.reverse by simp]
  rw [List.dropWhile_append]
  split
  · rename_i h
    rw [List.isEmpty_iff] at h
    simp [List.dropWhile_cons, hsp, h]
  · simp [List.reverse_append]

/-! ### Characterization of the Command Validator -/

theorem firstTok_noWs (s : Str) : ∀ c ∈ firstTok s, isWsB c = false := by
  unfold firstTok
  cases h : splitWs s with
  | nil => simp
  | cons x xs =>
    simp only [List.headD_cons]
    exact fun c hc => (splitWs_words s x (by simp [h])).2 c hc

theorem trimStr_firstTok (s : Str) : trimStr (firstTok s) = firstTok s :=
  trimStr_of_noWs _ (firstTok_noWs s)

/-- Unfolded form of `is_valid_command`: the validator accepts exactly the
candidates that pass the denylist, length and first-token checks and whose
first token resolves via `which`, contains a slash, or is a builtin. -/
theorem valid_iff (which : Str → Bool) (c : Str) :
    is_valid_command which c = true ↔
      (∀ p ∈ dangerous_patterns, containsL c p = false) ∧
      c ≠ [] ∧ utf8Len c ≤ 500 ∧ firstTok c ≠ [] ∧
      (firstTok c).head? ≠ some '#' ∧
      (which (firstTok c) = true ∨ (firstTok c).contains '/' = true ∨
        shell_builtins.contains (firstTok c) = true) := by
  simp only [is_valid_command, trimStr_firstTok]
  split
  · rename_i hdang
    simp only [Bool.false_eq_true, false_iff]
    rintro ⟨hd, -⟩
    rw [List.any_eq_true] at hdang
    obtain ⟨p, hp, hcp⟩ := hdang
    rw [hd p hp] at hcp
    exact absurd hcp (by simp)
  rename_i hdang
  have hd : ∀ p ∈ dangerous_patterns, containsL c p = false := by
    intro p hp
    by_contra hcp
    exact hdang (List.any_eq_true.mpr ⟨p, hp, by simpa using hcp⟩)
  split
  · rename_i hlen
    simp only [Bool.false_eq_true, false_iff]
    rw [Bool.or_eq_true, List.isEmpty_iff, decide_eq_true_eq] at hlen
    rintro ⟨-, h1, h2, -⟩
    rcases hlen with h | h
    · exact h1 h
    · omega
  rename_i hlen
  rw [Bool.or_eq_true, List.isEmpty_iff, decide_eq_true_eq] at hlen
  push_neg at hlen
  split
  · rename_i htok
    simp only [Bool.false_eq_true, false_iff]
    rw [Bool.or_eq_true, List.isEmpty_iff, decide_eq_true_eq] at htok
    rintro ⟨-, -, -, h4, h5, -⟩
    rcases htok with h | h
    · exact h4 h
    · exact h5 h
  rename_i htok
  rw [Bool.or_eq_true, List.isEmpty_iff, decide_eq_true_eq] at htok
  push_neg at htok
  split
  · rename_i hwhich
    simp only [true_iff]
    exact ⟨hd, hlen.1, by omega, htok.1, htok.2, Or.inl hwhich⟩
  rename_i hwhich
  split
  · rename_i hslash
    simp only [true_iff]
    rw [Bool.or_eq_true] at hslash
    exact ⟨hd, hlen.1, by omega, htok.1, htok.2, Or.inr hslash⟩
  rename_i hslash
  rw [Bool.or_eq_true] at hslash
  push_neg at hslash
  have hres : ¬(which (firstTok c) = true ∨ (firstTok c).contains '/' = true ∨
      shell_builtins.contains (firstTok c) = true) := by
    rintro (h | h | h)
    · exact hwhich h
    · exact hslash.1 h
    · exact hslash.2 h
  split
  · simp only [Bool.false_eq_true, false_iff]
    rintro ⟨-, -, -, -, -, h6⟩
    exact hres h6
  · simp only [Bool.false_eq_true, false_iff]
    rintro ⟨-, -, -, -, -, h6⟩
    exact hres h6

theorem valid_implies (which : Str → Bool) (c : Str)
    (h : is_valid_command which c = true) :
    c ≠ [] ∧ c.length ≤ 500 ∧ utf8Len c ≤ 500 := by
  obtain ⟨-, h1, h2, -⟩ := (valid_iff which c).mp h
  exact ⟨h1, le_trans (length_le_utf8Len c) h2, h2⟩

theorem valid_trimEndPunct (which : Str → Bool) (w rest : Str) (hne : w ≠ [])
    (hw : ∀ c ∈ w, isWsB c = false)
    (hv : is_valid_command which (w ++ ' ' :: rest) = true) :
    is_valid_command which (trimEndPunct (w ++ ' ' :: rest)) = true := by
  obtain ⟨hd, hne0, hlen, htok, hhash, hres⟩ := (valid_iff which _).mp hv
  rw [trimEndPunct_word_space]
  apply (valid_iff which _).mpr
  have hft : firstTok (w ++ ' ' :: rest) = w := firstTok_cons_space w rest hne hw
  have hft' : firstTok (w ++ ' ' :: trimEndPunct rest) = w :=
    firstTok_cons_space w _ hne hw
  have hpre : (w ++ ' ' :: trimEndPunct rest) <+: (w ++ ' ' :: rest) := by
    obtain ⟨t, ht⟩ := trimEndPunct_initial rest
    exact ⟨t, by simp [List.append_assoc, ht]⟩
  refine ⟨?_, by simp, le_trans (utf8Len_le_of_initial _ _ hpre) hlen, ?_, ?_, ?_⟩
  · intro p hp
    by_contra hcc
    rw [Bool.not_eq_false] at hcc
    have := containsL_mono _ _ p hpre.isInfix hcc
    rw [hd p hp] at this
    exact absurd this (by simp)
  · rw [hft']
    rw [hft] at htok
    exact htok
  · rw [hft']
    rw [hft] at hhash
    exact hhash
  · rw [hft']
    rw [hft] at hres
    exact hres

/-! ### Invariants of the fallback word scan -/

theorem curOK_head (cur w t : Str) (hgw : GoodWord w)
    (hcur : cur = w ∨ cur = w ++ ' ' :: t) :
    ∀ c, cur.head? = some c → isWsB c = false := by
  obtain ⟨hne, hns⟩ := hgw
  cases w with
  | nil => exact absurd rfl hne
  | cons a w' =>
    rcases hcur with rfl | rfl
    · intro c hc
      simp only [List.head?_cons, Option.some_inj] at hc
      subst hc
      exact hns _ (by simp)
    · intro c hc
      simp only [List.cons_append, List.head?_cons, Option.some_inj] at hc
      subst hc
      exact hns _ (by simp)

theorem firstTok_of_curOK (cur w t : Str) (hgw : GoodWord w)
    (hcur : cur = w ∨ cur = w ++ ' ' :: t) : firstTok cur = w := by
  obtain ⟨hne, hns⟩ := hgw
  rcases hcur with rfl | rfl
  · simp [firstTok, splitWs_single cur hne hns]
  · exact firstTok_cons_space w t hne hns

theorem push_cur (which : Str → Bool) (cur : Str) (h : CurOK cur) (hne : cur ≠ [])
    (hv : is_valid_command which cur = true) :
    QSugg which ⟨trimStr cur, none, mkRat 6 10⟩ := by
  rcases h with rfl | ⟨w, t, hgw, hstart, hlast, hcur⟩
  · exact absurd rfl hne
  have htrim : trimStr cur = cur :=
    trimStr_eq_self cur (curOK_head cur w t hgw hcur) hlast
  obtain ⟨hvne, hlen1, hlen2⟩ := valid_implies which cur hv
  refine ⟨by simpa [htrim] using hvne, by simpa [htrim] using hlen2,
    by simpa [htrim] using hlen1, by simpa [htrim] using hv, ?_, rfl, rfl⟩
  simp only [htrim]
  rw [firstTok_of_curOK cur w t hgw hcur]
  exact hstart

theorem push_sentence (which : Str → Bool) (cur word : Str) (hcurOK : CurOK cur)
    (hcne : cur ≠ [])
    (hv : is_valid_command which (cur ++ ' ' :: word) = true) :
    QSugg which ⟨trimEndPunct (cur ++ ' ' :: word), none, mkRat 6 10⟩ := by
  rcases hcurOK with rfl | ⟨w, t, hgww, hstart, hlast, hcur⟩
  · exact absurd rfl hcne
  obtain ⟨hwne, hwns⟩ := hgww
  have hrep : ∃ rest, cur ++ ' ' :: word = w ++ ' ' :: rest := by
    rcases hcur with rfl | rfl
    · exact ⟨word, rfl⟩
    · exact ⟨t ++ ' ' :: word, by simp⟩
  obtain ⟨rest, hrw⟩ := hrep
  rw [hrw] at hv ⊢
  have hv' := valid_trimEndPunct which w rest hwne hwns hv
  rw [trimEndPunct_word_space] at hv' ⊢
  obtain ⟨hvne, hlen1, hlen2⟩ := valid_implies which _ hv'
  refine ⟨hvne, hlen2, hlen1, hv', ?_, rfl, rfl⟩
  rw [firstTok_cons_space w _ hwne hwns]
  exact hstart

theorem curOK_word (word : Str) (hgw : GoodWord word)
    (hst : is_command_starter word = true) : CurOK word :=
  Or.inr ⟨word, [], hgw, hst,
    fun c hc => hgw.2 c (List.mem_of_mem_getLast? hc), Or.inl rfl⟩

theorem curOK_extend (cur word : Str) (h : CurOK cur) (hne : cur ≠ [])
    (hgw : GoodWord word) : CurOK (cur ++ ' ' :: word) := by
  rcases h with rfl | ⟨w, t, hgww, hst, hlast, hcur⟩
  · exact absurd rfl hne
  have hlast' : ∀ c, (cur ++ ' ' :: word).getLast? = some c → isWsB c = false := by
    intro c hc
    rw [List.getLast?_append_of_ne_nil cur (by simp)] at hc
    obtain ⟨wc, wrest, rfl⟩ := List.exists_cons_of_ne_nil hgw.1
    rw [List.getLast?_cons_cons] at hc
    exact hgw.2 c (List.mem_of_mem_getLast? hc)
  refine Or.inr ?_
  rcases hcur with rfl | rfl
  · exact ⟨cur, word, hgww, hst, hlast', Or.inr rfl⟩
  · exact ⟨w, t ++ ' ' :: word, hgww, hst, hlast', Or.inr (by simp)⟩

/-- Master invariant of the fallback word loop: starting from well-formed
words, a well-formed `current_command` and an accumulator of well-formed
suggestions, every suggestion in the result is well-formed and the final
`current_command` is well-formed. -/
theorem fbGo_inv (which : Str → Bool) (maxS : Nat) :
    ∀ (ws : List Str) (cur : Str) (acc : List Suggestion),
    (∀ w ∈ ws, GoodWord w) → CurOK cur → (∀ s ∈ acc, QSugg which s) →
    (∀ s ∈ (fbGo which maxS ws cur acc).1, QSugg which s) ∧
      CurOK (fbGo which maxS ws cur acc).2 := by
  intro ws
  induction ws with
  | nil =>
    intro cur acc _ hcur hacc
    simp only [fbGo]
    exact ⟨hacc, hcur⟩
  | cons word rest ih =>
    intro cur acc hws hcur hacc
    have hgw : GoodWord word := hws word (by simp)
    have hrest : ∀ w ∈ rest, GoodWord w := fun w hw => hws w (by simp [hw])
    simp only [fbGo]
    by_cases h1 : utf8Len word > 100
    · rw [if_pos h1]
      exact ih cur acc hrest hcur hacc
    rw [if_neg h1]
    by_cases h2 : is_command_starter word = true
    · rw [if_pos h2]
      by_cases h3 : (!cur.isEmpty && is_valid_command which cur) = true
      · rw [if_pos h3]
        rw [Bool.and_eq_true, Bool.not_eq_eq_eq_not, Bool.not_true, List.isEmpty_eq_false] at h3
        have hpush := push_cur which cur hcur h3.1 h3.2
        have hacc' : ∀ s ∈ acc ++ [(⟨trimStr cur, none, mkRat 6 10⟩ : Suggestion)],
            QSugg which s := by
          intro s hs
          rcases List.mem_append.mp hs with h | h
          · exact hacc s h
          · rw [List.mem_singleton] at h
            subst h
            exact hpush
        by_cases h4 : (acc ++ [(⟨trimStr cur, none, mkRat 6 10⟩ : Suggestion)]).length ≥ maxS
        · rw [if_pos h4]
          exact ⟨hacc', hcur⟩
        · rw [if_neg h4]
          exact ih word _ hrest (curOK_word word hgw h2) hacc'
      · rw [if_neg h3]
        exact ih word acc hrest (curOK_word word hgw h2) hacc
    rw [if_neg h2]
    by_cases h5 : (!cur.isEmpty) = true
    · rw [if_pos h5]
      rw [Bool.not_eq_eq_eq_not, Bool.not_true, List.isEmpty_eq_false] at h5
      by_cases h6 : (word.getLast? = some '.' ∨ word.getLast? = some '!') ∨
          word.getLast? = some '?'
      · rw [if_pos (by simpa using h6)]
        by_cases h7 : is_valid_command which (cur ++ ' ' :: word) = true
        · rw [if_pos h7]
          have hpush := push_sentence which cur word hcur h5 h7
          have hacc' : ∀ s ∈ acc ++
              [(⟨trimEndPunct (cur ++ ' ' :: word), none, mkRat 6 10⟩ : Suggestion)],
              QSugg which s := by
            intro s hs
            rcases List.mem_append.mp hs with h | h
            · exact hacc s h
            · rw [List.mem_singleton] at h
              subst h
              exact hpush
          by_cases h8 : (acc ++
              [(⟨trimEndPunct (cur ++ ' ' :: word), none, mkRat 6 10⟩ : Suggestion)]).length ≥ maxS
          · rw [if_pos h8]
            exact ⟨hacc', curOK_extend cur word hcur h5 hgw⟩
          · rw [if_neg h8]
            exact ih [] _ hrest (Or.inl rfl) hacc'
        · rw [if_neg h7]
          exact ih [] acc hrest (Or.inl rfl) hacc
      · rw [if_neg (by simpa using h6)]
        exact ih (cur ++ ' ' :: word) acc hrest (curOK_extend cur word hcur h5 hgw) hacc
    · rw [if_neg h5]
      exact ih cur acc hrest hcur hacc

/-- Every suggestion returned by `extract_commands_fallback` satisfies the
fallback invariant `QSugg`. -/
theorem extract_fallback_QSugg (which : Str → Bool) (resp : Str) (maxS : Nat) :
    ∀ s ∈ extract_commands_fallback which resp maxS, QSugg which s := by
  have hwords : ∀ w ∈ splitWs resp, GoodWord w := fun w hw =>
    ⟨(splitWs_words resp w hw).1, (splitWs_words resp w hw).2⟩
  have h := fbGo_inv which maxS (splitWs resp) [] [] hwords (Or.inl rfl) (by simp)
  simp only [extract_commands_fallback]
  split
  · rename_i hcond
    rw [Bool.and_eq_true, Bool.not_eq_eq_eq_not, Bool.not_true, List.isEmpty_eq_false] at hcond
    intro s hs
    rcases List.mem_append.mp hs with h' | h'
    · exact h.1 s h'
    · rw [List.mem_singleton] at h'
      subst h'
      exact push_cur which _ h.2 hcond.1 hcond.2
  · exact h.1

/-! ### Characterization of the primary line strategy -/

theorem primaryFilter_cons (which : Str → Bool) (line : Str) (rest : List Str) :
    primaryFilter which (line :: rest) =
      if primaryAccept which (trimStr line) = true
      then (⟨trimStr line, none, mkRat 8 10⟩ : Suggestion) :: primaryFilter which rest
      else primaryFilter which rest := by
  simp only [primaryFilter, List.map_cons, List.filter_cons]
  split <;> simp

theorem primaryGo_eq (which : Str → Bool) (maxS : Nat) :
    ∀ (lines : List Str) (acc : List Suggestion), (maxS = 0 ∨ acc.length < maxS) →
    primaryGo which maxS lines acc =
      acc ++ (primaryFilter which lines).take
        (if maxS = 0 then 1 else maxS - acc.length) := by
  intro lines
  induction lines with
  | nil =>
    intro acc _
    simp [primaryGo, primaryFilter]
  | cons line rest ih =>
    intro acc hb
    rw [primaryFilter_cons]
    simp only [primaryGo]
    split
    · rename_i hskip
      have ha : primaryAccept which (trimStr line) = false := by
        simp only [primaryAccept]
        rw [if_pos hskip]
      rw [ha]
      simp only [Bool.false_eq_true, if_false]
      exact ih acc hb
    · rename_i hskip
      split
      · rename_i hlv
        have ha : primaryAccept which (trimStr line) = true := by
          simp only [primaryAccept]
          rw [if_neg hskip]
          exact hlv
        rw [ha]
        simp only [if_true]
        rcases hb with rfl | hlt
        · rw [if_pos (by omega)]
          simp
        · by_cases hge : (acc ++ [(⟨trimStr line, none, mkRat 8 10⟩ : Suggestion)]).length ≥ maxS
          · rw [if_pos hge]
            rw [List.length_append, List.length_singleton] at hge
            have h1 : maxS - acc.length = 1 := by omega
            rw [if_neg (by omega), h1]
            simp
          · rw [if_neg hge]
            rw [List.length_append, List.length_singleton] at hge
            rw [ih _ (Or.inr (by simp only [List.length_append, List.length_singleton]; omega))]
            rw [if_neg (by omega), if_neg (by omega)]
            have h2 : maxS - acc.length = (maxS - (acc.length + 1)) + 1 := by omega
            rw [h2, List.take_succ_cons]
            simp [List.length_append]
      · rename_i hlv
        have ha : primaryAccept which (trimStr line) = false := by
          simp only [primaryAccept]
          rw [if_neg hskip]
          simpa using hlv
        rw [ha]
        simp only [Bool.false_eq_true, if_false]
        exact ih acc hb

/-- The primary strategy returns exactly the accepted lines in order,
truncated at the requested maximum (one when the maximum is zero). -/
theorem primary_parse_eq (which : Str → Bool) (resp : Str) (maxS : Nat) :
    primary_parse which resp maxS =
      (primaryFilter which (rustLines resp)).take (max 1 maxS) := by
  unfold primary_parse
  rcases Nat.eq_zero_or_pos maxS with rfl | h
  · rw [primaryGo_eq which 0 _ [] (Or.inl rfl)]
    simp
  · rw [primaryGo_eq which maxS _ [] (Or.inr (by simpa using h))]
    rw [if_neg (by omega)]
    simp [Nat.max_eq_right h]

/-! ### Remaining helper lemmas -/

theorem primaryAccept_valid (which : Str → Bool) (l : Str)
    (h : primaryAccept which l = true) : is_valid_command which l = true := by
  unfold primaryAccept at h
  split at h
  · exact absurd h (by simp)
  · rw [Bool.and_eq_true] at h
    exact h.2

theorem conf_primary : (mkRat 8 10 : ℚ) = 0.8 := by norm_num [Rat.mkRat_eq_div]

theorem conf_fallback : (mkRat 6 10 : ℚ) = 0.6 := by norm_num [Rat.mkRat_eq_div]

theorem primary_conf (which : Str → Bool) (resp : Str) (maxS : Nat) :
    ∀ s ∈ primary_parse which resp maxS, s.confidence = mkRat 8 10 := by
  intro s hs
  rw [primary_parse_eq] at hs
  have h := List.take_subset _ _ hs
  simp only [primaryFilter, List.mem_map] at h
  obtain ⟨l, -, rfl⟩ := h
  rfl

theorem parse_response_of_primary_ne (which : Str → Bool) (resp : Str) (maxS : Nat)
    (h : primary_parse which resp maxS ≠ []) :
    parse_response which resp maxS = primary_parse which resp maxS := by
  simp only [parse_response]
  rw [if_neg (by simpa [List.isEmpty_iff] using h)]

theorem parse_response_of_primary_eq (which : Str → Bool) (resp : Str) (maxS : Nat)
    (h : primary_parse which resp maxS = []) :
    parse_response which resp maxS = extract_commands_fallback which resp maxS := by
  simp only [parse_response]
  rw [if_pos (by simpa [List.isEmpty_iff] using h)]

/-! ### Claim theorems -/

/-- C1 (code bug): the suggestion list can exceed the caller-specified
maximum.  On raw output `"x cd y."` with maximum 1 and a PATH oracle that
resolves nothing, the primary strategy finds nothing, and the fallback
strategy emits `"cd y"` at the sentence boundary, breaks at the maximum,
and then the end-of-input flush re-emits the still-pending
`current_command` `"cd y."`: two suggestions despite the maximum of 1. -/
theorem C1_cap_violated :
    (parse_response whichFalse (strOf "x cd y.") 1).length = 2 ∧
    parse_response whichFalse (strOf "x cd y.") 1 =
      [⟨strOf "cd y", none, mkRat 6 10⟩, ⟨strOf "cd y.", none, mkRat 6 10⟩] := by
  constructor
  · decide
  · decide

/-- C2: every suggestion returned by the pipeline (primary or fallback,
including fallback suggestions whose trailing sentence punctuation was
trimmed) has a non-empty command of at most 500 characters (at most 500
UTF-8 bytes, in fact) that the Command Validator accepts. -/
theorem C2_suggestion_invariants (which : Str → Bool) (resp : Str) (maxS : Nat) :
    ∀ s ∈ parse_response which resp maxS,
      s.command ≠ [] ∧ s.command.length ≤ 500 ∧ utf8Len s.command ≤ 500 ∧
      is_valid_command which s.command = true := by
  intro s hs
  simp only [parse_response] at hs
  split at hs
  · obtain ⟨h1, h2, h3, h4, -⟩ := extract_fallback_QSugg which resp maxS s hs
    exact ⟨h1, h3, h2, h4⟩
  · rw [primary_parse_eq] at hs
    have hs2 := List.take_subset _ _ hs
    simp only [primaryFilter, List.mem_map] at hs2
    obtain ⟨l, hl, rfl⟩ := hs2
    obtain ⟨-, hacc⟩ := List.mem_filter.mp hl
    have hv := primaryAccept_valid which l hacc
    obtain ⟨h1, h2, h3⟩ := valid_implies which l hv
    exact ⟨h1, h2, h3, hv⟩

/-- Witness for C2 at a concrete run of the pipeline. -/
theorem C2_suggestion_invariants_witness :
    (⟨strOf "ls -la", none, mkRat 8 10⟩ : Suggestion).command ≠ [] ∧
    (⟨strOf "ls -la", none, mkRat 8 10⟩ : Suggestion).command.length ≤ 500 ∧
    utf8Len (⟨strOf "ls -la", none, mkRat 8 10⟩ : Suggestion).command ≤ 500 ∧
    is_valid_command whichTrue (⟨strOf "ls -la", none, mkRat 8 10⟩ : Suggestion).command = true :=
  C2_suggestion_invariants whichTrue (strOf "ls -la") 3 _ (by decide)

/-- C3: when the primary strategy yields at least one suggestion the
fallback never runs (the result is exactly the primary list) and every
confidence is 0.8; when the primary strategy yields nothing every returned
suggestion (all from the fallback) has confidence 0.6; no returned list
mixes the two values. -/
theorem C3_confidence_partition (which : Str → Bool) (resp : Str) (maxS : Nat) :
    (primary_parse which resp maxS ≠ [] →
      parse_response which resp maxS = primary_parse which resp maxS ∧
      ∀ s ∈ parse_response which resp maxS, s.confidence = 0.8) ∧
    (primary_parse which resp maxS = [] →
      ∀ s ∈ parse_response which resp maxS, s.confidence = 0.6) ∧
    (∀ s ∈ parse_response which resp maxS, ∀ u ∈ parse_response which resp maxS,
      s.confidence = u.confidence) := by
  refine ⟨?_, ?_, ?_⟩
  · intro hne
    have heq := parse_response_of_primary_ne which resp maxS hne
    refine ⟨heq, ?_⟩
    rw [heq]
    intro s hs
    rw [← conf_primary]
    exact primary_conf which resp maxS s hs
  · intro hemp
    intro s hs
    rw [parse_response_of_primary_eq which resp maxS hemp] at hs
    rw [← conf_fallback]
    exact (extract_fallback_QSugg which resp maxS s hs).2.2.2.2.2.1
  · intro s hs u hu
    by_cases hemp : primary_parse which resp maxS = []
    · rw [parse_response_of_primary_eq which resp maxS hemp] at hs hu
      rw [(extract_fallback_QSugg which resp maxS s hs).2.2.2.2.2.1,
        (extract_fallback_QSugg which resp maxS u hu).2.2.2.2.2.1]
    · rw [parse_response_of_primary_ne which resp maxS hemp] at hs hu
      rw [primary_conf which resp maxS s hs, primary_conf which resp maxS u hu]

/-- Witness for C3 at a concrete run of the pipeline. -/
theorem C3_confidence_partition_witness :
    parse_response whichTrue (strOf "ls -la") 3 =
      primary_parse whichTrue (strOf "ls -la") 3 ∧
    (∀ s ∈ parse_response whichFalse (strOf "x cd y.") 3, s.confidence = 0.6) :=
  ⟨((C3_confidence_partition whichTrue (strOf "ls -la") 3).1 (by decide)).1,
   (C3_confidence_partition whichFalse (strOf "x cd y.") 3).2.1 (by decide)⟩

/-- C4 counterexample: the validator and the spec procedure read with
"characters" meaning character count disagree on a 253-character candidate
whose UTF-8 length is 503 bytes: the code rejects it (byte length over
500), the literal character-count procedure accepts it. -/
theorem C4_character_count_counterexample :
    c4cand.length ≤ 500 ∧
    is_valid_command whichFalse c4cand = false ∧
    validate_spec_chars whichFalse c4cand = true := by
  refine ⟨by decide, by decide, by decide⟩

/-- C4 (amended): the validator's decision equals the spec's six-step
procedure with the length thresholds measured in UTF-8 bytes; any candidate
longer than 500 characters is rejected; and any candidate surviving the
denylist, length and first-token checks is accepted exactly when its first
token resolves through the PATH oracle, contains a path separator, or is a
shell builtin. -/
theorem C4_validator_refines_spec (which : Str → Bool) (cand : Str) :
    is_valid_command which cand = validate_spec which cand ∧
    (cand.length > 500 → is_valid_command which cand = false) ∧
    ((∀ p ∈ dangerous_patterns, containsL cand p = false) → cand ≠ [] →
      utf8Len cand ≤ 500 → firstTok cand ≠ [] → (firstTok cand).head? ≠ some '#' →
      (is_valid_command which cand = true ↔
        (which (firstTok cand) = true ∨ (firstTok cand).contains '/' = true ∨
          shell_builtins.contains (firstTok cand) = true))) := by
  refine ⟨?_, ?_, ?_⟩
  · simp only [is_valid_command, validate_spec, trimStr_firstTok]
    split_ifs <;> simp_all
  · intro hlen
    by_contra hv
    rw [Bool.not_eq_false] at hv
    obtain ⟨-, -, h500, -⟩ := (valid_iff which cand).mp hv
    have := length_le_utf8Len cand
    omega
  · intro h1 h2 h3 h4 h5
    rw [valid_iff]
    constructor
    · rintro ⟨-, -, -, -, -, h⟩
      exact h
    · intro h
      exact ⟨h1, h2, h3, h4, h5, h⟩

/-- Witness for C4 at concrete candidates. -/
theorem C4_validator_refines_spec_witness :
    is_valid_command whichFalse (List.replicate 501 'a') = false ∧
    (is_valid_command whichTrue (strOf "ls -la") = true ↔
      (whichTrue (firstTok (strOf "ls -la")) = true ∨
        (firstTok (strOf "ls -la")).contains '/' = true ∨
        shell_builtins.contains (firstTok (strOf "ls -la")) = true)) :=
  ⟨(C4_validator_refines_spec whichFalse (List.replicate 501 'a')).2.1 (by decide),
   (C4_validator_refines_spec whichTrue (strOf "ls -la")).2.2
     (by decide) (by decide) (by decide) (by decide) (by decide)⟩

/-- C5: any candidate containing a denylisted dangerous substring is
rejected, and `"rm -rf /"` is rejected whatever the PATH oracle says. -/
theorem C5_denylist_rejects (which : Str → Bool) (cand p : Str) :
    (p ∈ dangerous_patterns → containsL cand p = true →
      is_valid_command which cand = false) ∧
    is_valid_command which (strOf "rm -rf /") = false := by
  constructor
  · intro hp hc
    by_contra hv
    rw [Bool.not_eq_false] at hv
    obtain ⟨hd, -⟩ := (valid_iff which cand).mp hv
    rw [hd p hp] at hc
    exact absurd hc (by simp)
  · by_contra hv
    rw [Bool.not_eq_false] at hv
    obtain ⟨hd, -⟩ := (valid_iff which _).mp hv
    have hc : containsL (strOf "rm -rf /") (strOf "rm -rf /") = true := by decide
    rw [hd (strOf "rm -rf /") (by decide)] at hc
    exact absurd hc (by simp)

/-- Witness for C5 at a concrete dangerous candidate. -/
theorem C5_denylist_rejects_witness :
    is_valid_command whichTrue (strOf "sudo rm -rf / now") = false :=
  (C5_denylist_rejects whichTrue (strOf "sudo rm -rf / now") (strOf "rm -rf /")).1
    (by decide) (by decide)

/-- C6 counterexample: a single-line raw output of 153 characters but 303
UTF-8 bytes.  The line is non-empty, not a comment, within 300 characters,
looks like a command and validates, yet the primary strategy returns
nothing, because the code measures the 300 limit in bytes. -/
theorem C6_byte_limit_counterexample :
    c6line.length ≤ 300 ∧ trimStr c6line = c6line ∧ c6line ≠ [] ∧
    c6line.head? ≠ some '#' ∧ looks_like_command c6line = true ∧
    is_valid_command whichFalse c6line = true ∧
    primary_parse whichFalse c6line 3 = [] := by
  refine ⟨by decide, by decide, by decide, by decide, by decide, by decide, by decide⟩

/-- C6 (amended): the primary strategy returns exactly the trimmed lines
that are not skipped (empty, starting with `#`, or over 300 UTF-8 bytes)
and that both look like a command and pass the validator, in order, capped
at the requested maximum (one suggestion when the maximum is 0). -/
theorem C6_primary_line_filter (which : Str → Bool) (resp : Str) (maxS : Nat) :
    primary_parse which resp maxS =
      ((((rustLines resp).map trimStr).filter (fun l => primaryAccept which l)).map
        (fun l => (⟨l, none, 0.8⟩ : Suggestion))).take (max 1 maxS) := by
  rw [primary_parse_eq]
  simp only [primaryFilter]
  have hf : (fun l => (⟨l, none, mkRat 8 10⟩ : Suggestion)) =
      (fun l => (⟨l, none, (0.8 : ℚ)⟩ : Suggestion)) := by
    funext l
    rw [conf_primary]
  rw [hf]

/-- C9: a non-zero engine exit fails the invocation with the decoded
standard-error content and the pipeline produces no suggestion list; a zero
exit returns the decoded, trimmed standard output. -/
theorem C9_engine_outcome (which : Str → Bool) (decode : List Nat → Str)
    (out : ProcessOutput) (maxS : Nat) :
    (out.exit_success = false →
      generate_text decode (some out) = .error (.executionFailed (decode out.stderr)) ∧
      generate_suggestions which decode (some out) maxS =
        .error (.executionFailed (decode out.stderr))) ∧
    (out.exit_success = true →
      generate_text decode (some out) = .ok (trimStr (decode out.stdout)) ∧
      generate_suggestions which decode (some out) maxS =
        .ok (parse_response which (trimStr (decode out.stdout)) maxS)) := by
  obtain ⟨e, sout, serr⟩ := out
  constructor
  · rintro rfl
    exact ⟨rfl, rfl⟩
  · rintro rfl
    exact ⟨rfl, rfl⟩

/-- Witness for C9 at a concrete failing engine run. -/
theorem C9_engine_outcome_witness :
    generate_suggestions whichTrue (fun _ => strOf "err") (some ⟨false, [], []⟩) 3 =
      .error (.executionFailed (strOf "err")) :=
  ((C9_engine_outcome whichTrue (fun _ => strOf "err") ⟨false, [], []⟩ 3).1 rfl).2

/-- C10: every fallback suggestion starts with a token accepted by
`is_command_starter`, and words before the first (not over-long)
command-starter token are discarded: the loop behaves as if they were
absent. -/
theorem C10_fallback_starters (which : Str → Bool) :
    (∀ (resp : Str) (maxS : Nat) (s : Suggestion),
      s ∈ extract_commands_fallback which resp maxS →
      is_command_starter (firstTok s.command) = true) ∧
    (∀ (maxS : Nat) (pre rest : List Str),
      (∀ w ∈ pre, utf8Len w > 100 ∨ is_command_starter w = false) →
      fbGo which maxS (pre ++ rest) [] [] = fbGo which maxS rest [] []) := by
  constructor
  · intro resp maxS s hs
    exact (extract_fallback_QSugg which resp maxS s hs).2.2.2.2.1
  · intro maxS pre rest hpre
    induction pre with
    | nil => simp
    | cons w pre ih =>
      have hw := hpre w (by simp)
      have ihh := ih (fun w hw => hpre w (by simp [hw]))
      simp only [List.cons_append, fbGo]
      rcases hw with h | h
      · rw [if_pos h]
        exact ihh
      · by_cases h1 : utf8Len w > 100
        · rw [if_pos h1]
          exact ihh
        · rw [if_neg h1, if_neg (by simp [h]), if_neg (by simp)]
          exact ihh

/-- Witness for C10 at a concrete fallback run. -/
theorem C10_fallback_starters_witness :
    is_command_starter
      (firstTok ((⟨strOf "cd y", none, mkRat 6 10⟩ : Suggestion).command)) = true ∧
    fbGo whichFalse 5 ([strOf "try"] ++ [strOf "cd", strOf "home."]) [] [] =
      fbGo whichFalse 5 [strOf "cd", strOf "home."] [] [] :=
  ⟨(C10_fallback_starters whichFalse).1 (strOf "x cd y.") 5 _ (by decide),
   (C10_fallback_starters whichFalse).2 5 [strOf "try"] [strOf "cd", strOf "home."]
     (by decide)⟩

/-! ### Lemmas about the prompt builder -/

/-- The enhanced prompt is the base template, an optional learned-pattern
block, and the closing cue. -/
theorem build_decomp (u : Str) (ctx : ContextData) :
    ∃ mid, build_enhanced_prompt u ctx =
      basePrompt u ((envGet ctx.environment (strOf "os")).getD (strOf "unknown"))
        ((envGet ctx.environment (strOf "shell")).getD (strOf "unknown"))
        (toolsOf ctx.environment) (recentOf ctx.recent_commands) ++ mid ++
        strOf "\n\nCommands:" := by
  simp only [build_enhanced_prompt]
  split
  · split
    · exact ⟨strOf "\n\nLearned patterns:\n" ++
        joinSep (strOf "\n") (relevantPatterns ctx.content), by simp [List.append_assoc]⟩
    · exact ⟨[], by simp⟩
  · exact ⟨[], by simp⟩

theorem basePrompt_os (u os shell tools recent : Str) :
    containsL (basePrompt u os shell tools recent) (tplOS ++ os ++ nl) = true := by
  have h := containsL_of_parts (tplTop ++ u ++ tplSys) (tplOS ++ os ++ nl)
    (tplShell ++ shell ++ nl ++ tplTools ++ tools ++ nl ++ tplRecent ++ recent ++ nl ++
      tplMid ++ u)
  simpa only [basePrompt, List.append_assoc] using h

theorem basePrompt_shell (u os shell tools recent : Str) :
    containsL (basePrompt u os shell tools recent) (tplShell ++ shell ++ nl) = true := by
  have h := containsL_of_parts (tplTop ++ u ++ tplSys ++ tplOS ++ os ++ nl)
    (tplShell ++ shell ++ nl)
    (tplTools ++ tools ++ nl ++ tplRecent ++ recent ++ nl ++ tplMid ++ u)
  simpa only [basePrompt, List.append_assoc] using h

theorem basePrompt_tools (u os shell tools recent : Str) :
    containsL (basePrompt u os shell tools recent) (tplTools ++ tools ++ nl) = true := by
  have h := containsL_of_parts
    (tplTop ++ u ++ tplSys ++ tplOS ++ os ++ nl ++ tplShell ++ shell ++ nl)
    (tplTools ++ tools ++ nl)
    (tplRecent ++ recent ++ nl ++ tplMid ++ u)
  simpa only [basePrompt, List.append_assoc] using h

theorem basePrompt_recent (u os shell tools recent : Str) :
    containsL (basePrompt u os shell tools recent) (tplRecent ++ recent ++ nl) = true := by
  have h := containsL_of_parts
    (tplTop ++ u ++ tplSys ++ tplOS ++ os ++ nl ++ tplShell ++ shell ++ nl ++
      tplTools ++ tools ++ nl)
    (tplRecent ++ recent ++ nl)
    (tplMid ++ u)
  simpa only [basePrompt, List.append_assoc] using h

theorem basePrompt_infix_build (u : Str) (ctx : ContextData) (pat : Str)
    (h : containsL (basePrompt u
      ((envGet ctx.environment (strOf "os")).getD (strOf "unknown"))
      ((envGet ctx.environment (strOf "shell")).getD (strOf "unknown"))
      (toolsOf ctx.environment) (recentOf ctx.recent_commands)) pat = true) :
    containsL (build_enhanced_prompt u ctx) pat = true := by
  obtain ⟨mid, hmid⟩ := build_decomp u ctx
  rw [hmid]
  refine containsL_mono _ _ pat ⟨[], mid ++ strOf "\n\nCommands:", by simp [List.append_assoc]⟩ h

/-! ### Claim theorems for the prompt builder -/

/-- C7 counterexample: with recent commands `["", "docker ps"]` the code
joins the empty first word in, producing `"Recent commands: , docker"`;
the claim's pruned form `"Recent commands: docker"` is absent. -/
theorem C7_empty_participant_counterexample :
    containsL (build_enhanced_prompt (strOf "hi") c7ctx)
      (strOf "- Recent commands: , docker\n") = true ∧
    containsL (build_enhanced_prompt (strOf "hi") c7ctx)
      (strOf "- Recent commands: docker\n") = false := by
  refine ⟨by decide, by decide⟩

/-- C7 (amended): the enhanced prompt contains the user prompt twice, the
OS and shell environment values (default `unknown`), the first 20
comma-separated `available_tools` entries re-joined (default `basic`), and
the comma-joined first words of the first 3 recent commands with empty
first words kept as empty entries; it ends with the literal cue
`Commands:`. -/
theorem C7_prompt_contents (u : Str) (env : List (Str × Str)) (recent : List Str)
    (content : Str) :
    (∃ a b c, build_enhanced_prompt u ⟨env, recent, content⟩ = a ++ u ++ b ++ u ++ c) ∧
    containsL (build_enhanced_prompt u ⟨env, recent, content⟩)
      (strOf "- OS: " ++ (envGet env (strOf "os")).getD (strOf "unknown") ++
        strOf "\n") = true ∧
    containsL (build_enhanced_prompt u ⟨env, recent, content⟩)
      (strOf "- Shell: " ++ (envGet env (strOf "shell")).getD (strOf "unknown") ++
        strOf "\n") = true ∧
    containsL (build_enhanced_prompt u ⟨env, recent, content⟩)
      (strOf "- Available executables: " ++ toolsOf env ++ strOf "\n") = true ∧
    containsL (build_enhanced_prompt u ⟨env, recent, content⟩)
      (strOf "- Recent commands: " ++ recentOf recent ++ strOf "\n") = true ∧
    endsWithL (build_enhanced_prompt u ⟨env, recent, content⟩) (strOf "Commands:") = true := by
  obtain ⟨mid, hmid⟩ := build_decomp u ⟨env, recent, content⟩
  refine ⟨?_, ?_, ?_, ?_, ?_, ?_⟩
  · refine ⟨tplTop, tplSys ++ tplOS ++ (envGet env (strOf "os")).getD (strOf "unknown") ++
      nl ++ tplShell ++ (envGet env (strOf "shell")).getD (strOf "unknown") ++ nl ++
      tplTools ++ toolsOf env ++ nl ++ tplRecent ++ recentOf recent ++ nl ++ tplMid,
      mid ++ strOf "\n\nCommands:", ?_⟩
    rw [hmid]
    simp [basePrompt, List.append_assoc]
  · exact basePrompt_infix_build u _ _ (basePrompt_os u _ _ _ _)
  · exact basePrompt_infix_build u _ _ (basePrompt_shell u _ _ _ _)
  · exact basePrompt_infix_build u _ _ (basePrompt_tools u _ _ _ _)
  · exact basePrompt_infix_build u _ _ (basePrompt_recent u _ _ _ _)
  · rw [hmid]
    have hsplit : strOf "\n\nCommands:" = strOf "\n\n" ++ strOf "Commands:" := by decide
    rw [hsplit]
    have h := endsWithL_of_append
      (basePrompt u ((envGet env (strOf "os")).getD (strOf "unknown"))
        ((envGet env (strOf "shell")).getD (strOf "unknown"))
        (toolsOf env) (recentOf recent) ++ mid ++ strOf "\n\n") (strOf "Commands:")
    simpa [List.append_assoc] using h

/-- C8 counterexample: a non-empty learned-pattern text with no marker
lines produces no `Learned patterns` section at all. -/
theorem C8_no_section_counterexample :
    c8ctx.content ≠ [] ∧
    containsL (build_enhanced_prompt (strOf "hi") c8ctx)
      (strOf "Learned patterns") = false := by
  refine ⟨by decide, by decide⟩

/-- C8 (amended): whenever the learned-pattern text has at least one line
containing `→` or `✓`, the enhanced prompt ends with a `Learned patterns`
section holding exactly the first 5 such lines, verbatim, newline-joined,
in original order, followed by the closing cue. -/
theorem C8_learned_patterns_section (u : Str) (env : List (Str × Str))
    (recent : List Str) (content : Str) (hne : relevantPatterns content ≠ []) :
    ∃ a, build_enhanced_prompt u ⟨env, recent, content⟩ =
      a ++ strOf "\n\nLearned patterns:\n" ++
        joinSep (strOf "\n") (relevantPatterns content) ++ strOf "\n\nCommands:" := by
  have hcne : (!(ContextData.mk env recent content).content.isEmpty) = true := by
    rcases content with _ | ⟨c, cs⟩
    · exact absurd (by decide : relevantPatterns [] = ([] : List Str)) hne
    · rfl
  simp only [build_enhanced_prompt]
  rw [if_pos hcne, if_pos (by simpa using hne)]
  exact ⟨basePrompt u ((envGet env (strOf "os")).getD (strOf "unknown"))
    ((envGet env (strOf "shell")).getD (strOf "unknown"))
    (toolsOf env) (recentOf recent), by simp [List.append_assoc]⟩

/-- Witness for C8 at a concrete marker-bearing context. -/
theorem C8_learned_patterns_section_witness :
    ∃ a, build_enhanced_prompt (strOf "hi") ⟨[], [], strOf "a → b\nx"⟩ =
      a ++ strOf "\n\nLearned patterns:\n" ++
        joinSep (strOf "\n") (relevantPatterns (strOf "a → b\nx")) ++
        strOf "\n\nCommands:" :=
  C8_learned_patterns_section (strOf "hi") [] [] (strOf "a → b\nx") (by decide)

end Commandy
